import Mathlib

/-!
A shallow embedding of the webflow reverse proxy (src/main.rs) together with
proofs about its redirect resolver, header filtering, target URL construction
and HTML body rewrite.

Strings from the Rust code are modelled as `List Char`; raw HTTP bodies are
modelled as lists of byte values (`List Nat`, each entry below 256 for inputs
produced by real sockets).
-/

namespace WebflowProxy

/-- One HTTP header, as a (name, value) pair. -/
abbrev Header := List Char × List Char

/-- ASCII lowercasing of one character.  This models Rust
str::to_lowercase as it acts on HTTP header names, which the http crate
restricts to ASCII. -/
def toLowerAscii (c : Char) : Char :=
  if 'A' ≤ c ∧ c ≤ 'Z' then Char.ofNat (c.toNat + 32) else c

/-- name.as_str().to_lowercase() applied to a header name. -/
def lowerName (s : List Char) : List Char := s.map toLowerAscii

/-- Rust str::starts_with restricted to the string patterns used here. -/
def startsWith (pat l : List Char) : Bool := l.take pat.length == pat

/-- Rust str::contains for a substring needle, used for the
content_type.contains of the handler. -/
def containsSeq (needle : List Char) : List Char → Bool
  | [] => needle.isEmpty
  | c :: rest => startsWith needle (c :: rest) || containsSeq needle rest

/-- enum RedirectMode from src/main.rs: the code has exactly the two
variants Www and Root. -/
inductive RedirectMode
  | Www
  | Root
deriving DecidableEq

/-- host.split(":").next().unwrap_or(host): everything before the first
colon (the whole host when there is no colon). -/
def hostWithoutPort (host : List Char) : List Char :=
  host.takeWhile (fun c => c != ':')

/-- host_without_port.strip_prefix("www.").unwrap_or(host_without_port). -/
def stripWww (h : List Char) : List Char :=
  if startsWith "www.".data h then h.drop "www.".data.length else h

/-- uri.query().map(|q| format!("?{}", q)).unwrap_or_default(). -/
def optQuery : Option (List Char) → List Char
  | some q => '?' :: q
  | none => []

/-- The new_host computed by check_redirect in the branch where it decides
to redirect (none when it proxies normally).  This factors the host
computation of check_redirect out of the URL formatting. -/
def redirectTarget (mode : RedirectMode) (host : List Char) : Option (List Char) :=
  match mode, startsWith "www.".data (hostWithoutPort host) with
  | .Www, false => some ("www.".data ++ hostWithoutPort host)
  | .Root, true => some (stripWww (hostWithoutPort host))
  | _, _ => none

/-- fn check_redirect from src/main.rs: returns the redirect URL
format!("https://{}{}{}", new_host, path, query) when the mode and the
www-shape of the host call for a redirect, and None otherwise. -/
def check_redirect (mode : RedirectMode) (host path : List Char)
    (query : Option (List Char)) : Option (List Char) :=
  (redirectTarget mode host).map
    (fun nh => "https://".data ++ nh ++ path ++ optQuery query)

/-- The BASE_URL environment parsing in main: Ok("www") selects Www,
Ok("root") selects Root, any other value and an unset variable are fatal
startup errors (std::process::exit(1) after an eprintln, modelled as an
error result). -/
def parseRedirectMode : Option (List Char) → Except (List Char) RedirectMode
  | some s =>
      if s = "www".data then .ok .Www
      else if s = "root".data then .ok .Root
      else .error "Error: BASE_URL must be www or root".data
  | none => .error "Error: BASE_URL environment variable is not set".data

/-! ## Header filtering -/

/-- The matches! block of the outbound request loop: request header names
dropped before forwarding to the upstream. -/
def isReqBlocked (n : List Char) : Bool :=
  n == "host".data || n == "connection".data ||
    n == "transfer-encoding".data || n == "content-length".data

/-- The outbound header loop of proxy_handler: keep every inbound header
whose lowercased name is not in the request block list. -/
def filterRequestHeaders (hs : List Header) : List Header :=
  hs.filter (fun h => !(isReqBlocked (lowerName h.1)))

/-- The matches! block of the response loop: upstream header names dropped
before relaying to the client. -/
def isRespBlocked (n : List Char) : Bool :=
  n == "transfer-encoding".data || n == "content-length".data ||
    n == "connection".data || n == "content-encoding".data

/-- The response header loop of proxy_handler: keep every upstream header
whose lowercased name is not in the response block list. -/
def filterResponseHeaders (hs : List Header) : List Header :=
  hs.filter (fun h => !(isRespBlocked (lowerName h.1)))

/-- resp_builder.headers_ref().get("content-type") ... unwrap_or(""):
value of the first header whose (normalized) name is content-type, or the
empty string.  The http HeaderMap stores names lowercased, which the
lowerName comparison models. -/
def contentTypeOf (hs : List Header) : List Char :=
  match hs.find? (fun h => lowerName h.1 == "content-type".data) with
  | some h => h.2
  | none => []

/-! ## The regex rewrite

The regex data-wf-domain="[^"]*" is simple enough to admit a direct
operational model: a match at a position consists of the literal
data-wf-domain=" followed by the (unique) run of non-quote characters up
to the next quote, which it also consumes.  replace_all scans left to
right and replaces each leftmost match, resuming after the replaced text,
which the fuelled scanner below implements.  A string replacement is not
written literally: the regex crate expands dollar references in it (a
double dollar writes one dollar, group 0 is the whole match, and a
reference to a group the pattern lacks writes nothing), which expandRepl
below models. -/

/-- The fixed opening text of the marker regex, data-wf-domain=" . -/
def wfMarker : List Char := "data-wf-domain=\"".data

/-- format!(r#"data-wf-domain="{}""#, state.prod_url): the replacement
text written for each match. -/
def wfReplacement (prod : List Char) : List Char :=
  wfMarker ++ prod ++ ['"']

/-- Split a string at its first quote: some (before, after) where the
string is before ++ quote ++ after, none when it has no quote.  This is
how the [^"]*" tail of the regex consumes input. -/
def findQuote : List Char → Option (List Char × List Char)
  | [] => none
  | c :: rest =>
    if c = '"' then some ([], rest)
    else
      match findQuote rest with
      | some (i, r) => some (c :: i, r)
      | none => none

/-- The regex match attempt at the head of a string: some (matched text,
rest) when data-wf-domain="[^"]*" matches here, none otherwise. -/
def matchAt (l : List Char) : Option (List Char × List Char) :=
  if startsWith wfMarker l then
    match findQuote (l.drop wfMarker.length) with
    | some (inside, rest) => some (wfMarker ++ inside ++ ['"'], rest)
    | none => none
  else none

/-- One character of a capture-group name in a replacement string:
0-9, a-z, A-Z or the underscore (is_valid_cap_letter of the regex crate). -/
def isCapLetter (c : Char) : Bool :=
  ('0' ≤ c && c ≤ '9') || ('a' ≤ c && c ≤ 'z') || ('A' ≤ c && c ≤ 'Z') || c == '_'

/-- find_cap_ref of the regex crate, applied to the text following a
dollar sign: an optional opening brace, a nonempty run of name
characters, and a closing brace when one was opened.  Returns the name
and the remaining text, or none when no valid reference starts here. -/
def parseCapRef (l : List Char) : Option (List Char × List Char) :=
  match l with
  | '{' :: rest =>
    if (rest.takeWhile isCapLetter).isEmpty then none
    else
      match rest.drop (rest.takeWhile isCapLetter).length with
      | '}' :: rest2 => some (rest.takeWhile isCapLetter, rest2)
      | _ => none
  | _ =>
    if (l.takeWhile isCapLetter).isEmpty then none
    else some (l.takeWhile isCapLetter, l.drop (l.takeWhile isCapLetter).length)

/-- The group a reference name denotes: a name that parses as a u32
numeral is that group index, and any other name (including a numeral too
large for u32) is a named reference. -/
def capRefGroup (name : List Char) : Option Nat :=
  if name.all (fun c => '0' ≤ c && c ≤ '9') then
    if name.foldl (fun a c => a * 10 + (c.toNat - 48)) 0 < 2 ^ 32 then
      some (name.foldl (fun a c => a * 10 + (c.toNat - 48)) 0)
    else none
  else none

/-- Text written for one capture reference of the marker regex: group 0
is the whole match; every other reference (the pattern has no other
groups and no named groups) writes nothing. -/
def expandRef (m : List Char) (name : List Char) : List Char :=
  match capRefGroup name with
  | some 0 => m
  | _ => []

/-- Fuelled body of expand_str of the regex crate for one match: plain
text is copied, a double dollar writes a single dollar, a valid capture
reference writes the referenced group, and a dollar starting no valid
reference is literal.  The fuel only serves termination; expandRepl
below always supplies enough. -/
def expandReplF (m : List Char) : Nat → List Char → List Char
  | _, [] => []
  | 0, l => l
  | fuel + 1, c :: rest =>
    if c = '$' then
      match rest with
      | '$' :: rest2 => '$' :: expandReplF m fuel rest2
      | _ =>
        match parseCapRef rest with
        | some (name, rest2) => expandRef m name ++ expandReplF m fuel rest2
        | none => '$' :: expandReplF m fuel rest
    else c :: expandReplF m fuel rest

/-- Dollar expansion of the replacement string for a match with text m. -/
def expandRepl (m repl : List Char) : List Char :=
  expandReplF m repl.length repl

/-- Fuelled left-to-right scan of replace_all: at each position, replace
a match with the expanded replacement and resume after it, or emit one
character and move on.  The fuel only serves termination; replaceAll
below always supplies enough. -/
def replaceAllF (repl : List Char) : Nat → List Char → List Char
  | _, [] => []
  | 0, l => l
  | fuel + 1, c :: rest =>
    match matchAt (c :: rest) with
    | some (m, after) => expandRepl m repl ++ replaceAllF repl fuel after
    | none => c :: replaceAllF repl fuel rest

/-- wf_domain_re.replace_all(html, replacement): every leftmost match is
replaced by the dollar-expanded replacement string. -/
def replaceAll (repl l : List Char) : List Char :=
  replaceAllF repl l.length l

/-- Number of positions of a string at which the marker regex matches
(counting overlapping positions). -/
def countOcc : List Char → Nat
  | [] => 0
  | c :: rest => (if (matchAt (c :: rest)).isSome then 1 else 0) + countOcc rest

/-- Number of positions of a string at which a fixed string t occurs
(counting overlapping positions). -/
def countSub (t : List Char) : List Char → Nat
  | [] => 0
  | c :: rest => (if startsWith t (c :: rest) then 1 else 0) + countSub t rest

/-- A string does not overlap itself when no nonempty proper suffix of it
is also one of its own leading parts.  Every realistic replacement
attribute data-wf-domain="domain" has this property. -/
def noSelfOverlap (t : List Char) : Bool :=
  (List.range t.length).all (fun k => k = 0 || !(startsWith (t.drop k) t))

/-! ## UTF-8 (String::from_utf8_lossy and String::into_bytes) -/

/-- A UTF-8 continuation byte. -/
def isCont (b : Nat) : Bool := 0x80 ≤ b && b ≤ 0xBF

/-- Admissible second byte of a multi-byte sequence for a given lead byte,
with the tightened ranges that exclude overlong forms, surrogates and
values above U+10FFFF (the WHATWG table used by the Rust core decoder). -/
def utf8SecondOk (b b1 : Nat) : Bool :=
  if b = 0xE0 then 0xA0 ≤ b1 && b1 ≤ 0xBF
  else if b = 0xED then 0x80 ≤ b1 && b1 ≤ 0x9F
  else if b = 0xF0 then 0x90 ≤ b1 && b1 ≤ 0xBF
  else if b = 0xF4 then 0x80 ≤ b1 && b1 ≤ 0x8F
  else isCont b1

/-- Fuelled body of String::from_utf8_lossy: decode UTF-8, replacing each
maximal invalid subpart by U+FFFD and resuming at the first byte that does
not continue the failed sequence.  The fuel only serves termination;
utf8DecodeLossy below always supplies enough. -/
def utf8DecodeLossyF : Nat → List Nat → List Char
  | _, [] => []
  | 0, _ => []
  | fuel + 1, b :: rest =>
    if b ≤ 0x7F then Char.ofNat b :: utf8DecodeLossyF fuel rest
    else if 0xC2 ≤ b && b ≤ 0xDF then
      match rest with
      | [] => [Char.ofNat 0xFFFD]
      | b1 :: r =>
        if isCont b1 then
          Char.ofNat ((b - 0xC0) * 0x40 + (b1 - 0x80)) :: utf8DecodeLossyF fuel r
        else Char.ofNat 0xFFFD :: utf8DecodeLossyF fuel rest
    else if 0xE0 ≤ b && b ≤ 0xEF then
      match rest with
      | [] => [Char.ofNat 0xFFFD]
      | b1 :: r =>
        if utf8SecondOk b b1 then
          match r with
          | [] => [Char.ofNat 0xFFFD]
          | b2 :: r2 =>
            if isCont b2 then
              Char.ofNat ((b - 0xE0) * 0x1000 + (b1 - 0x80) * 0x40 + (b2 - 0x80)) ::
                utf8DecodeLossyF fuel r2
            else Char.ofNat 0xFFFD :: utf8DecodeLossyF fuel r
        else Char.ofNat 0xFFFD :: utf8DecodeLossyF fuel rest
    else if 0xF0 ≤ b && b ≤ 0xF4 then
      match rest with
      | [] => [Char.ofNat 0xFFFD]
      | b1 :: r =>
        if utf8SecondOk b b1 then
          match r with
          | [] => [Char.ofNat 0xFFFD]
          | b2 :: r2 =>
            if isCont b2 then
              match r2 with
              | [] => [Char.ofNat 0xFFFD]
              | b3 :: r3 =>
                if isCont b3 then
                  Char.ofNat ((b - 0xF0) * 0x40000 + (b1 - 0x80) * 0x1000 +
                      (b2 - 0x80) * 0x40 + (b3 - 0x80)) :: utf8DecodeLossyF fuel r3
                else Char.ofNat 0xFFFD :: utf8DecodeLossyF fuel r2
            else Char.ofNat 0xFFFD :: utf8DecodeLossyF fuel r
        else Char.ofNat 0xFFFD :: utf8DecodeLossyF fuel rest
    else Char.ofNat 0xFFFD :: utf8DecodeLossyF fuel rest

/-- String::from_utf8_lossy. -/
def utf8DecodeLossy (l : List Nat) : List Char :=
  utf8DecodeLossyF l.length l

/-- Validity of a byte string as UTF-8 (true exactly when from_utf8_lossy
performs no replacement). -/
def utf8Valid : List Nat → Bool
  | [] => true
  | b :: rest =>
    if b ≤ 0x7F then utf8Valid rest
    else if 0xC2 ≤ b && b ≤ 0xDF then
      match rest with
      | [] => false
      | b1 :: r => isCont b1 && utf8Valid r
    else if 0xE0 ≤ b && b ≤ 0xEF then
      match rest with
      | b1 :: b2 :: r => utf8SecondOk b b1 && isCont b2 && utf8Valid r
      | _ => false
    else if 0xF0 ≤ b && b ≤ 0xF4 then
      match rest with
      | b1 :: b2 :: b3 :: r => utf8SecondOk b b1 && isCont b2 && isCont b3 && utf8Valid r
      | _ => false
    else false

/-- UTF-8 encoding of one scalar value (String::into_bytes, per char). -/
def utf8EncodeChar (c : Char) : List Nat :=
  let n := c.toNat
  if n ≤ 0x7F then [n]
  else if n ≤ 0x7FF then [0xC0 + n / 0x40, 0x80 + n % 0x40]
  else if n ≤ 0xFFFF then
    [0xE0 + n / 0x1000, 0x80 + (n / 0x40) % 0x40, 0x80 + n % 0x40]
  else
    [0xF0 + n / 0x40000, 0x80 + (n / 0x1000) % 0x40,
      0x80 + (n / 0x40) % 0x40, 0x80 + n % 0x40]

/-- modified.into_owned().into_bytes(): UTF-8 encoding of a string. -/
def utf8Encode (l : List Char) : List Nat :=
  (l.map utf8EncodeChar).flatten

/-! ## The proxy pipeline -/

/-- AppState without the reqwest client: the immutable configuration. -/
structure Config where
  webflow_url : List Char
  prod_url : List Char
  redirect_mode : RedirectMode

/-- One inbound request as proxy_handler receives it (the body already
collected to bytes). -/
structure InboundRequest where
  host : List Char
  path : List Char
  query : Option (List Char)
  headers : List Header
  body : List Nat

/-- The outbound request assembled for reqwest. -/
structure OutboundRequest where
  url : List Char
  headers : List Header
  body : List Nat

/-- The upstream response as received. -/
structure UpstreamResponse where
  status : Nat
  headers : List Header
  body : List Nat

/-- The response handed back to the client. -/
structure FinalResponse where
  status : Nat
  headers : List Header
  body : List Nat

/-- Outcome of one request. -/
inductive ProxyResult
  | redirect (status : Nat) (location : List Char)
  | upstreamResponse (r : FinalResponse)
  | badGateway

/-- axum Redirect::permanent responds with 308 Permanent Redirect. -/
def permanentRedirectStatus : Nat := 308

/-- Target URL and outbound headers/body built by proxy_handler:
format!("{}{}{}", state.webflow_url, path, query) plus the filtered
header set and the collected body bytes. -/
def buildOutbound (cfg : Config) (req : InboundRequest) : OutboundRequest :=
  { url := cfg.webflow_url ++ req.path ++ optQuery req.query
    headers := filterRequestHeaders req.headers
    body := req.body }

/-- The body relayed to the client: rewritten via the regex on the lossily
decoded text when the (already filtered) content-type contains text/html,
the original bytes otherwise. -/
def modifiedBody (prod : List Char) (filteredHeaders : List Header)
    (bodyBytes : List Nat) : List Nat :=
  if containsSeq "text/html".data (contentTypeOf filteredHeaders) then
    utf8Encode (replaceAll (wfReplacement prod) (utf8DecodeLossy bodyBytes))
  else bodyBytes

/-- The response assembled from an upstream response: same status, the
filtered header set, and the conditionally rewritten body. -/
def buildResponse (prod : List Char) (r : UpstreamResponse) : FinalResponse :=
  let fh := filterResponseHeaders r.headers
  { status := r.status, headers := fh, body := modifiedBody prod fh r.body }

/-- fn proxy_handler: redirect check first (terminal when it fires), then
the upstream call on the constructed outbound request; a transport-level
upstream failure becomes a bad gateway outcome. -/
def proxy_handler (cfg : Config)
    (upstream : OutboundRequest → Option UpstreamResponse)
    (req : InboundRequest) : ProxyResult :=
  match check_redirect cfg.redirect_mode req.host req.path req.query with
  | some url => .redirect permanentRedirectStatus url
  | none =>
    match upstream (buildOutbound cfg req) with
    | some r => .upstreamResponse (buildResponse cfg.prod_url r)
    | none => .badGateway


/-! ## Basic lemmas about the string primitives -/

theorem startsWith_iff {t l : List Char} : startsWith t l = true ↔ l.take t.length = t := by
  simp [startsWith]

theorem startsWith_append_self (t s : List Char) : startsWith t (t ++ s) = true := by
  simp [startsWith, List.take_left]

theorem hostWithoutPort_id {h : List Char} (hc : ∀ c ∈ h, (c != ':') = true) :
    hostWithoutPort h = h :=
  List.takeWhile_eq_self_iff.mpr hc

theorem hostWithoutPort_nc {host : List Char} {c : Char} (h : c ∈ hostWithoutPort host) :
    (c != ':') = true :=
  @List.mem_takeWhile_imp Char (fun c => c != ':') _ _ h

/-! ## C3: the redirect decision table -/

/-- C3: for every inbound host (after stripping any trailing port) and both
redirect modes, check_redirect follows the decision table of the spec: in
Www mode a host not beginning with www. is redirected to
https://www.[host][path][?query] and a www. host is proxied; in Root mode a
www. host is redirected to https://[host minus www.][path][?query] and a
bare host is proxied. -/
theorem c3_redirect_decision_table (host path : List Char) (query : Option (List Char)) :
    check_redirect .Www host path query =
      (if startsWith "www.".data (hostWithoutPort host) then none
       else some ("https://".data ++ ("www.".data ++ hostWithoutPort host) ++
          path ++ optQuery query)) ∧
    check_redirect .Root host path query =
      (if startsWith "www.".data (hostWithoutPort host) then
        some ("https://".data ++ (hostWithoutPort host).drop 4 ++ path ++ optQuery query)
       else none) := by
  have h4 : ("www.".data).length = 4 := by decide
  cases hw : startsWith "www.".data (hostWithoutPort host) <;>
    simp [check_redirect, redirectTarget, stripWww, hw, h4]

/-! ## C5: redirect idempotence -/

theorem redirectTarget_www {host nh : List Char}
    (h : redirectTarget .Www host = some nh) :
    nh = "www.".data ++ hostWithoutPort host := by
  unfold redirectTarget at h
  cases hw : startsWith "www.".data (hostWithoutPort host) <;> rw [hw] at h <;>
    simp_all

theorem redirectTarget_root {host nh : List Char}
    (h : redirectTarget .Root host = some nh) :
    startsWith "www.".data (hostWithoutPort host) = true ∧ nh = stripWww (hostWithoutPort host) := by
  unfold redirectTarget at h
  cases hw : startsWith "www.".data (hostWithoutPort host) <;> rw [hw] at h <;>
    simp_all

/-- C5 amended: the host of the computed redirect target is a fixed point
of the resolver in Www mode always, and in Root mode whenever the target
host does not itself begin with www. (stripping removes only one leading
www., so a host of the form www.www.x redirects again). -/
theorem c5_redirect_idempotent (mode : RedirectMode) (host nh path : List Char)
    (query : Option (List Char))
    (h : redirectTarget mode host = some nh)
    (hshape : mode = .Www ∨ startsWith "www.".data nh = false) :
    check_redirect mode nh path query = none := by
  cases mode with
  | Www =>
    have hnh := redirectTarget_www h
    have hid : hostWithoutPort nh = nh := by
      apply hostWithoutPort_id
      intro c hc
      rw [hnh] at hc
      have hwww : ∀ x ∈ "www.".data, (x != ':') = true := by decide
      rcases List.mem_append.mp hc with hc | hc
      · exact hwww c hc
      · exact hostWithoutPort_nc hc
    have hsw : startsWith "www.".data (hostWithoutPort nh) = true := by
      rw [hid, hnh]; exact startsWith_append_self _ _
    simp [check_redirect, redirectTarget, hsw]
  | Root =>
    rcases hshape with hshape | hshape
    · exact absurd hshape (by simp)
    obtain ⟨hw, hnh⟩ := redirectTarget_root h
    have hid : hostWithoutPort nh = nh := by
      apply hostWithoutPort_id
      intro c hc
      rw [hnh] at hc
      refine @hostWithoutPort_nc host c ?_
      unfold stripWww at hc
      cases hsw : startsWith "www.".data (hostWithoutPort host) <;> rw [hsw] at hc
      · exact hc
      · exact List.mem_of_mem_drop hc
    simp [check_redirect, redirectTarget, hid, hshape]

/-- C5 counterexample: in Root mode the host www.www.example.com is
redirected to host www.example.com, and feeding that target host back in
yields a further redirect, so the target host is not a fixed point. -/
theorem c5_counterexample :
    redirectTarget .Root "www.www.example.com".data = some "www.example.com".data ∧
    check_redirect .Root "www.example.com".data "/".data none =
      some "https://example.com/".data := by
  constructor <;> decide

theorem c5_witness :
    check_redirect .Www "www.example.com".data "/a".data none = none :=
  c5_redirect_idempotent .Www "example.com".data "www.example.com".data "/a".data none
    (by decide) (Or.inl rfl)

/-! ## C9: the redirect mode selector -/

/-- C9 amended: the BASE_URL selector accepts exactly the two literal
tokens www and root, mapping to the Www and Root modes; every other value,
and an unset variable, is a fatal startup error.  There is no third
no-redirect variant. -/
theorem c9_mode_parsing :
    parseRedirectMode (some "www".data) = .ok .Www ∧
    parseRedirectMode (some "root".data) = .ok .Root ∧
    (∀ s m, parseRedirectMode s = .ok m →
      (s = some "www".data ∧ m = .Www) ∨ (s = some "root".data ∧ m = .Root)) ∧
    (∀ s, s ≠ some "www".data → s ≠ some "root".data →
      ∃ e, parseRedirectMode s = .error e) := by
  refine ⟨rfl, rfl, ?_, ?_⟩
  · intro s m h
    cases s with
    | none => exact absurd h (by simp [parseRedirectMode])
    | some l =>
      simp only [parseRedirectMode] at h
      by_cases h1 : l = "www".data
      · rw [if_pos h1] at h
        cases h
        exact Or.inl ⟨by rw [h1], rfl⟩
      · rw [if_neg h1] at h
        by_cases h2 : l = "root".data
        · rw [if_pos h2] at h
          cases h
          exact Or.inr ⟨by rw [h2], rfl⟩
        · rw [if_neg h2] at h
          exact absurd h (by simp)
  · intro s h1 h2
    cases s with
    | none => exact ⟨_, rfl⟩
    | some l =>
      have h1l : ¬ l = "www".data := fun hh => h1 (by rw [hh])
      have h2l : ¬ l = "root".data := fun hh => h2 (by rw [hh])
      refine ⟨"Error: BASE_URL must be www or root".data, ?_⟩
      simp only [parseRedirectMode]
      rw [if_neg h1l, if_neg h2l]

/-- C9 counterexample: the code has no third no-redirect variant: the mode
enum has exactly the two inhabitants Www and Root, and both the token none
and an unset BASE_URL are fatal errors rather than a no-redirect mode. -/
theorem c9_counterexample :
    (∀ m : RedirectMode, m = .Www ∨ m = .Root) ∧
    (∃ e, parseRedirectMode (some "none".data) = .error e) ∧
    (∃ e, parseRedirectMode none = .error e) :=
  ⟨fun m => by cases m <;> simp, ⟨_, rfl⟩, ⟨_, rfl⟩⟩

theorem c9_witness :
    ∃ e, parseRedirectMode (some "off".data) = .error e :=
  c9_mode_parsing.2.2.2 (some "off".data) (by decide) (by decide)


/-! ## C4: redirects are terminal -/

/-- C4 amended: for every request that check_redirect decides to redirect,
proxy_handler emits a permanent redirect (HTTP 308 Permanent Redirect, the
status used by axum Redirect::permanent) whose target preserves the path
and query exactly, and the outcome does not depend on the upstream at all:
no upstream request is issued. -/
theorem c4_redirect_terminal (cfg : Config)
    (upstream : OutboundRequest → Option UpstreamResponse) (req : InboundRequest)
    (url : List Char)
    (h : check_redirect cfg.redirect_mode req.host req.path req.query = some url) :
    proxy_handler cfg upstream req = .redirect permanentRedirectStatus url ∧
    permanentRedirectStatus = 308 ∧
    (∀ upstream2, proxy_handler cfg upstream2 req = proxy_handler cfg upstream req) ∧
    ∃ nh, redirectTarget cfg.redirect_mode req.host = some nh ∧
      url = "https://".data ++ nh ++ req.path ++ optQuery req.query := by
  refine ⟨by simp [proxy_handler, h], rfl, fun u2 => by simp [proxy_handler, h], ?_⟩
  unfold check_redirect at h
  cases hrt : redirectTarget cfg.redirect_mode req.host with
  | none => rw [hrt] at h; exact absurd h (by simp)
  | some nh =>
    rw [hrt] at h
    simp only [Option.map_some', Option.some.injEq] at h
    exact ⟨nh, rfl, h.symm⟩

/-- C4 counterexample: the redirect emitted for a concrete redirected
request carries status 308 (Permanent Redirect), not status 301 as the
claim states. -/
theorem c4_counterexample :
    proxy_handler ⟨"https://x.webflow.io".data, "p.example".data, .Www⟩ (fun _ => none)
        ⟨"example.com".data, "/".data, none, [], []⟩ =
      .redirect 308 "https://www.example.com/".data ∧ (308 : Nat) ≠ 301 :=
  ⟨rfl, by decide⟩

theorem c4_witness :
    proxy_handler ⟨"https://x.webflow.io".data, "p.example".data, .Www⟩ (fun _ => none)
        ⟨"example.com".data, "/pricing".data, some "a=1".data, [], []⟩ =
      .redirect permanentRedirectStatus "https://www.example.com/pricing?a=1".data :=
  (c4_redirect_terminal _ _ _ _ (by decide)).1

/-! ## C6 and C7: header filtering -/

theorem isReqBlocked_false_iff (m : List Char) :
    isReqBlocked m = false ↔
      m ≠ "host".data ∧ m ≠ "connection".data ∧
        m ≠ "transfer-encoding".data ∧ m ≠ "content-length".data := by
  simp [isReqBlocked]
  tauto

theorem isRespBlocked_false_iff (m : List Char) :
    isRespBlocked m = false ↔
      m ≠ "transfer-encoding".data ∧ m ≠ "content-length".data ∧
        m ≠ "connection".data ∧ m ≠ "content-encoding".data := by
  simp [isRespBlocked]
  tauto

/-- C6: the header set sent upstream never contains a header named host,
connection, transfer-encoding or content-length (compared after ASCII
lowercasing), whatever the inbound request contained; every other inbound
header passes through unchanged and in order. -/
theorem c6_request_header_filtering (hs : List Header) (n v : List Char) :
    ((n, v) ∈ filterRequestHeaders hs →
      lowerName n ≠ "host".data ∧ lowerName n ≠ "connection".data ∧
        lowerName n ≠ "transfer-encoding".data ∧ lowerName n ≠ "content-length".data ∧
        (n, v) ∈ hs) ∧
    ((n, v) ∈ hs →
      lowerName n ≠ "host".data → lowerName n ≠ "connection".data →
      lowerName n ≠ "transfer-encoding".data → lowerName n ≠ "content-length".data →
      (n, v) ∈ filterRequestHeaders hs) ∧
    List.Sublist (filterRequestHeaders hs) hs := by
  refine ⟨?_, ?_, List.filter_sublist hs⟩
  · intro h
    rw [filterRequestHeaders, List.mem_filter] at h
    obtain ⟨hmem, hp⟩ := h
    simp only [Bool.not_eq_true'] at hp
    have := (isReqBlocked_false_iff (lowerName n)).mp hp
    exact ⟨this.1, this.2.1, this.2.2.1, this.2.2.2, hmem⟩
  · intro hmem h1 h2 h3 h4
    rw [filterRequestHeaders, List.mem_filter]
    refine ⟨hmem, ?_⟩
    simp only [Bool.not_eq_true']
    exact (isReqBlocked_false_iff (lowerName n)).mpr ⟨h1, h2, h3, h4⟩

theorem c6_witness :
    ("Accept".data, "a".data) ∈
      filterRequestHeaders [("Host".data, "h".data), ("Accept".data, "a".data)] :=
  (c6_request_header_filtering [("Host".data, "h".data), ("Accept".data, "a".data)]
      "Accept".data "a".data).2.1 (by decide) (by decide) (by decide) (by decide) (by decide)

/-- C7: the header set returned to the client never contains a header
named transfer-encoding, content-length, connection or content-encoding
(compared after ASCII lowercasing); every other upstream header passes
through unchanged and in order. -/
theorem c7_response_header_filtering (hs : List Header) (n v : List Char) :
    ((n, v) ∈ filterResponseHeaders hs →
      lowerName n ≠ "transfer-encoding".data ∧ lowerName n ≠ "content-length".data ∧
        lowerName n ≠ "connection".data ∧ lowerName n ≠ "content-encoding".data ∧
        (n, v) ∈ hs) ∧
    ((n, v) ∈ hs →
      lowerName n ≠ "transfer-encoding".data → lowerName n ≠ "content-length".data →
      lowerName n ≠ "connection".data → lowerName n ≠ "content-encoding".data →
      (n, v) ∈ filterResponseHeaders hs) ∧
    List.Sublist (filterResponseHeaders hs) hs := by
  refine ⟨?_, ?_, List.filter_sublist hs⟩
  · intro h
    rw [filterResponseHeaders, List.mem_filter] at h
    obtain ⟨hmem, hp⟩ := h
    simp only [Bool.not_eq_true'] at hp
    have := (isRespBlocked_false_iff (lowerName n)).mp hp
    exact ⟨this.1, this.2.1, this.2.2.1, this.2.2.2, hmem⟩
  · intro hmem h1 h2 h3 h4
    rw [filterResponseHeaders, List.mem_filter]
    refine ⟨hmem, ?_⟩
    simp only [Bool.not_eq_true']
    exact (isRespBlocked_false_iff (lowerName n)).mpr ⟨h1, h2, h3, h4⟩

theorem c7_witness :
    ("x-served-by".data, "cache".data) ∈
      filterResponseHeaders
        [("Content-Encoding".data, "gzip".data), ("x-served-by".data, "cache".data)] :=
  (c7_response_header_filtering
      [("Content-Encoding".data, "gzip".data), ("x-served-by".data, "cache".data)]
      "x-served-by".data "cache".data).2.1
    (by decide) (by decide) (by decide) (by decide) (by decide)

/-! ## C8: target URL construction -/

/-- C8: the upstream target URL is exactly the configured origin followed
by the request path, followed by a question mark and the query string when
and only when a query is present; no path segment is altered. -/
theorem c8_target_url (cfg : Config) (req : InboundRequest) :
    (buildOutbound cfg req).url = cfg.webflow_url ++ req.path ++ optQuery req.query ∧
    (req.query = none → (buildOutbound cfg req).url = cfg.webflow_url ++ req.path) ∧
    (∀ q, req.query = some q →
      (buildOutbound cfg req).url = cfg.webflow_url ++ req.path ++ '?' :: q) := by
  refine ⟨rfl, ?_, ?_⟩
  · intro h; simp [buildOutbound, h, optQuery]
  · intro q h; simp [buildOutbound, h, optQuery]

theorem c8_witness :
    (buildOutbound ⟨"https://x.webflow.io".data, "p".data, .Www⟩
        ⟨"example.com".data, "/about".data, some "a=1".data, [], []⟩).url =
      "https://x.webflow.io".data ++ "/about".data ++ '?' :: "a=1".data :=
  (c8_target_url _ _).2.2 "a=1".data rfl

/-! ## C2: the HTML gate on the rewrite -/

/-- C2: the HTML rewrite is applied exactly when the filtered content-type
header value contains the substring text/html; for every other
content-type the relayed body is byte-for-byte the upstream body. -/
theorem c2_html_gate (prod : List Char) (r : UpstreamResponse) :
    (containsSeq "text/html".data
        (contentTypeOf (filterResponseHeaders r.headers)) = false →
      (buildResponse prod r).body = r.body) ∧
    (containsSeq "text/html".data
        (contentTypeOf (filterResponseHeaders r.headers)) = true →
      (buildResponse prod r).body =
        utf8Encode (replaceAll (wfReplacement prod) (utf8DecodeLossy r.body))) := by
  constructor <;> intro h <;> simp [buildResponse, modifiedBody, h]

theorem c2_witness :
    (buildResponse "p.example".data
        ⟨200, [("content-type".data, "application/json".data)], [0xFF, 0x00]⟩).body =
      [0xFF, 0x00] :=
  (c2_html_gate "p.example".data _).1 (by decide)


/-! ## Structure of the regex scanner -/

theorem option_isSome_false_iff {α : Type} {o : Option α} : o.isSome = false ↔ o = none := by
  cases o <;> simp

theorem findQuote_eq {l i r : List Char} (h : findQuote l = some (i, r)) :
    l = i ++ '"' :: r ∧ '"' ∉ i := by
  induction l generalizing i r with
  | nil => simp [findQuote] at h
  | cons c rest ih =>
    rw [findQuote] at h
    by_cases hc : c = '"'
    · rw [if_pos hc] at h
      simp only [Option.some.injEq, Prod.mk.injEq] at h
      obtain ⟨h1, h2⟩ := h
      subst h1; subst h2
      simp [hc]
    · rw [if_neg hc] at h
      cases hfq : findQuote rest with
      | none => rw [hfq] at h; simp at h
      | some q =>
        obtain ⟨i2, r2⟩ := q
        rw [hfq] at h
        simp only [Option.some.injEq, Prod.mk.injEq] at h
        obtain ⟨h1, h2⟩ := h
        obtain ⟨hl, hni⟩ := ih hfq
        subst h2
        constructor
        · rw [← h1, hl]; simp
        · rw [← h1]
          intro hmem
          rcases List.mem_cons.mp hmem with hh | hh
          · exact hc hh.symm
          · exact hni hh

theorem findQuote_isSome_of_mem {l : List Char} (h : '"' ∈ l) :
    (findQuote l).isSome = true := by
  induction l with
  | nil => simp at h
  | cons c rest ih =>
    rw [findQuote]
    by_cases hc : c = '"'
    · rw [if_pos hc]; rfl
    · rw [if_neg hc]
      have hr : '"' ∈ rest := by
        rcases List.mem_cons.mp h with hh | hh
        · exact absurd hh.symm hc
        · exact hh
      have hs := ih hr
      cases hfq : findQuote rest with
      | none => rw [hfq] at hs; simp at hs
      | some q =>
        obtain ⟨i, r⟩ := q
        rfl

theorem matchAt_nil : matchAt ([] : List Char) = none := by decide

theorem matchAt_some {l m s : List Char} (h : matchAt l = some (m, s)) :
    l = m ++ s ∧ ∃ i, m = wfMarker ++ i ++ ['"'] ∧ '"' ∉ i := by
  unfold matchAt at h
  cases hs : startsWith wfMarker l
  · rw [hs] at h; simp at h
  · rw [hs] at h
    simp only [if_true] at h
    cases hfq : findQuote (l.drop wfMarker.length) with
    | none => rw [hfq] at h; simp at h
    | some q =>
      obtain ⟨i, r⟩ := q
      rw [hfq] at h
      simp only [Option.some.injEq, Prod.mk.injEq] at h
      obtain ⟨hm, hsr⟩ := h
      obtain ⟨hl, hni⟩ := findQuote_eq hfq
      have hsw : l.take wfMarker.length = wfMarker := startsWith_iff.mp hs
      refine ⟨?_, i, hm.symm, hni⟩
      rw [← hm, ← hsr]
      calc l = l.take wfMarker.length ++ l.drop wfMarker.length :=
            (List.take_append_drop _ _).symm
        _ = wfMarker ++ (i ++ '"' :: r) := by rw [hsw, hl]
        _ = wfMarker ++ i ++ ['"'] ++ r := by simp

theorem matchAt_rest_length {l m s : List Char} (h : matchAt l = some (m, s)) :
    s.length < l.length := by
  obtain ⟨hl, i, hm, -⟩ := matchAt_some h
  rw [hl, hm]
  simp [List.length_append]
  omega

theorem matchAt_isSome_of_repl {prod l : List Char}
    (h : startsWith (wfReplacement prod) l = true) : (matchAt l).isSome = true := by
  have hwf : l.take (wfReplacement prod).length = wfReplacement prod := startsWith_iff.mp h
  have hl : l = wfReplacement prod ++ l.drop (wfReplacement prod).length := by
    conv_lhs => rw [← List.take_append_drop ((wfReplacement prod).length) l]
    rw [hwf]
  have h1 : startsWith wfMarker l = true := by
    rw [startsWith_iff, hl, wfReplacement, List.append_assoc, List.append_assoc]
    exact List.take_left _ _
  have h2 : '"' ∈ l.drop wfMarker.length := by
    conv_lhs => rw [hl, wfReplacement, List.append_assoc, List.append_assoc]
    rw [List.drop_left]
    simp
  have h3 := findQuote_isSome_of_mem h2
  cases hfq : findQuote (l.drop wfMarker.length) with
  | none => rw [hfq] at h3; simp at h3
  | some q =>
    obtain ⟨i, r⟩ := q
    simp [matchAt, h1, hfq]

/-! ## The scan: fuel irrelevance and unfolding -/

theorem replaceAllF_fuel {repl : List Char} :
    ∀ (f g : Nat) (l : List Char), l.length ≤ f → l.length ≤ g →
      replaceAllF repl f l = replaceAllF repl g l := by
  intro f
  induction f with
  | zero =>
    intro g l hf _
    have hnil : l = [] := by cases l with
      | nil => rfl
      | cons c rest => simp at hf
    subst hnil
    cases g <;> simp [replaceAllF]
  | succ f ih =>
    intro g l hf hg
    cases l with
    | nil => cases g <;> simp [replaceAllF]
    | cons c rest =>
      cases g with
      | zero => simp at hg
      | succ g =>
        simp only [replaceAllF]
        cases hm : matchAt (c :: rest) with
        | some q =>
          obtain ⟨m, after⟩ := q
          simp only [hm]
          have hlt := matchAt_rest_length hm
          simp only [List.length_cons] at hf hg hlt
          exact congrArg _ (ih g after (by omega) (by omega))
        | none =>
          simp only [hm]
          simp only [List.length_cons] at hf hg
          exact congrArg _ (ih g rest (by omega) (by omega))

theorem replaceAll_nil (repl : List Char) : replaceAll repl [] = [] := rfl

theorem replaceAll_cons_some {c : Char} {rest m after : List Char} (repl : List Char)
    (h : matchAt (c :: rest) = some (m, after)) :
    replaceAll repl (c :: rest) = expandRepl m repl ++ replaceAll repl after := by
  unfold replaceAll
  simp only [List.length_cons, replaceAllF, h]
  refine congrArg _ (replaceAllF_fuel _ _ _ ?_ (le_refl _))
  have := matchAt_rest_length h
  simp only [List.length_cons] at this
  omega

theorem replaceAll_cons_none {c : Char} {rest : List Char} (repl : List Char)
    (h : matchAt (c :: rest) = none) :
    replaceAll repl (c :: rest) = c :: replaceAll repl rest := by
  unfold replaceAll
  simp only [List.length_cons, replaceAllF, h]

/-! ## countOcc -/

theorem countOcc_eq_zero_iff {l : List Char} :
    countOcc l = 0 ↔ ∀ i, (matchAt (l.drop i)).isSome = false := by
  induction l with
  | nil =>
    simp only [countOcc, List.drop_nil, matchAt_nil]
    simp
  | cons c rest ih =>
    rw [countOcc]
    constructor
    · intro h
      have h1 : (matchAt (c :: rest)).isSome = false := by
        cases hmm : (matchAt (c :: rest)).isSome
        · rfl
        · rw [hmm] at h; simp at h
      have h2 : countOcc rest = 0 := by rw [h1] at h; simpa using h
      intro i
      cases i with
      | zero => simpa using h1
      | succ j => rw [List.drop_succ_cons]; exact ih.mp h2 j
    · intro h
      have h1 := h 0
      rw [List.drop_zero] at h1
      rw [h1]
      simp only [Bool.false_eq_true, if_false, Nat.zero_add]
      apply ih.mpr
      intro j
      have := h (j + 1)
      rwa [List.drop_succ_cons] at this

theorem countOcc_drop_eq_zero {l : List Char} (h : countOcc l = 0) (k : Nat) :
    countOcc (l.drop k) = 0 := by
  rw [countOcc_eq_zero_iff] at h ⊢
  intro i
  rw [List.drop_drop]
  exact h (k + i)

/-! ## The scan on occurrence-free and single-occurrence strings -/

theorem replaceAll_eq_self {repl l : List Char} (h : countOcc l = 0) :
    replaceAll repl l = l := by
  induction l with
  | nil => rfl
  | cons c rest ih =>
    rw [countOcc] at h
    have h1 : matchAt (c :: rest) = none := by
      cases hmm : matchAt (c :: rest) with
      | none => rfl
      | some q => rw [hmm] at h; simp at h
    have h2 : countOcc rest = 0 := by rw [h1] at h; simpa using h
    rw [replaceAll_cons_none repl h1, ih h2]

theorem replaceAll_append_of_first {repl : List Char} :
    ∀ (p r m s : List Char),
      (∀ i, i < p.length → (matchAt ((p ++ r).drop i)).isSome = false) →
      matchAt r = some (m, s) →
      replaceAll repl (p ++ r) = p ++ expandRepl m repl ++ replaceAll repl s := by
  intro p
  induction p with
  | nil =>
    intro r m s _ hm
    cases r with
    | nil => rw [matchAt_nil] at hm; exact absurd hm (by simp)
    | cons c rest =>
      simp only [List.nil_append]
      rw [replaceAll_cons_some repl hm]
  | cons c p ih =>
    intro r m s hno hm
    have h0 : matchAt (c :: (p ++ r)) = none := by
      have := hno 0 (by simp)
      rw [List.drop_zero, List.cons_append] at this
      exact option_isSome_false_iff.mp this
    have harg : ∀ i, i < p.length → (matchAt ((p ++ r).drop i)).isSome = false := by
      intro i hi
      have := hno (i + 1) (by simpa using Nat.succ_lt_succ hi)
      rwa [List.cons_append, List.drop_succ_cons] at this
    rw [List.cons_append, replaceAll_cons_none repl h0, ih r m s harg hm]
    simp

theorem countOcc_one_decomp {body : List Char} (h : countOcc body = 1) :
    ∃ p m s, body = p ++ m ++ s ∧ matchAt (m ++ s) = some (m, s) ∧
      (∀ i, i < p.length → (matchAt (body.drop i)).isSome = false) ∧
      countOcc s = 0 := by
  induction body with
  | nil => simp [countOcc] at h
  | cons c rest ih =>
    rw [countOcc] at h
    cases hm : matchAt (c :: rest) with
    | some q =>
      obtain ⟨m, s⟩ := q
      have hrest : countOcc rest = 0 := by rw [hm] at h; simp at h; omega
      obtain ⟨hl, i, hmeq, -⟩ := matchAt_some hm
      refine ⟨[], m, s, by simpa using hl, by rw [← hl]; exact hm, by simp, ?_⟩
      cases m with
      | nil => exact absurd hmeq.symm (by simp)
      | cons d mt =>
        have h2 : rest = mt ++ s := by
          rw [List.cons_append] at hl
          exact (List.cons.inj hl).2
        have hsd : s = rest.drop mt.length := by rw [h2, List.drop_left]
        rw [hsd]
        exact countOcc_drop_eq_zero hrest mt.length
    | none =>
      have hrest : countOcc rest = 1 := by rw [hm] at h; simpa using h
      obtain ⟨p, m, s, hl, hms, hbefore, hs0⟩ := ih hrest
      refine ⟨c :: p, m, s, by simp [hl], hms, ?_, hs0⟩
      intro i hi
      cases i with
      | zero =>
        rw [List.drop_zero]
        exact option_isSome_false_iff.mpr hm
      | succ j =>
        rw [List.drop_succ_cons]
        exact hbefore j (by simpa using hi)


/-! ## Occurrence counting of the replacement text -/

theorem startsWith_of_append {t x y : List Char} (h : startsWith t x = true) :
    startsWith t (x ++ y) = true := by
  rw [startsWith_iff] at h ⊢
  have hle : t.length ≤ x.length := by
    have := congrArg List.length h
    simp [List.length_take] at this
    omega
  rw [List.take_append_of_le_length hle, h]

theorem startsWith_of_take {t x y : List Char} (hle : t.length ≤ x.length)
    (h : startsWith t (x ++ y) = true) : startsWith t x = true := by
  rw [startsWith_iff] at h ⊢
  rwa [List.take_append_of_le_length hle] at h

theorem startsWith_take_self {t : List Char} (q : Nat) (hq : q ≤ t.length) :
    startsWith (t.take q) t = true := by
  rw [startsWith_iff, List.length_take, Nat.min_eq_left hq]

theorem startsWith_take_of_append_eq {u w t : List Char} (h : u ++ w = t) :
    startsWith u t = true := by
  rw [startsWith_iff, ← h]
  exact List.take_left _ _

theorem self_overlap_of_straddle {t d s : List Char} (hd : 0 < d.length)
    (hdn : d.length < t.length) (h : startsWith t (d ++ (t ++ s)) = true) :
    startsWith (t.drop d.length) t = true := by
  rw [startsWith_iff] at h
  rw [List.take_append_eq_append_take, List.take_of_length_le (le_of_lt hdn),
    List.take_append_of_le_length (by omega)] at h
  have hdrop : t.drop d.length = t.take (t.length - d.length) := by
    conv_lhs => rw [← h]
    rw [List.drop_left]
  rw [hdrop]
  exact startsWith_take_self _ (by omega)

theorem self_overlap_of_shift {t s : List Char} {k : Nat}
    (h : startsWith t (t.drop k ++ s) = true) :
    startsWith (t.drop k) t = true := by
  rw [startsWith_iff] at h
  rw [List.take_append_eq_append_take,
    List.take_of_length_le (by simp [List.length_drop])] at h
  exact startsWith_take_of_append_eq h

theorem noSelfOverlap_no {t : List Char} (h : noSelfOverlap t = true) {k : Nat}
    (hk0 : 0 < k) (hkn : k < t.length) : startsWith (t.drop k) t = false := by
  unfold noSelfOverlap at h
  rw [List.all_eq_true] at h
  have h2 := h k (List.mem_range.mpr hkn)
  simp only [Bool.or_eq_true, decide_eq_true_eq, Bool.not_eq_true'] at h2
  rcases h2 with h2 | h2
  · omega
  · exact h2

theorem countSub_eq_zero {t l : List Char}
    (h : ∀ i, startsWith t (l.drop i) = false) : countSub t l = 0 := by
  induction l with
  | nil => rfl
  | cons c rest ih =>
    rw [countSub]
    have h0 := h 0
    rw [List.drop_zero] at h0
    rw [h0]
    simp only [Bool.false_eq_true, if_false, Nat.zero_add]
    apply ih
    intro j
    have := h (j + 1)
    rwa [List.drop_succ_cons] at this

theorem countSub_append_of_no_occurrence {t : List Char} :
    ∀ (p r : List Char), (∀ i, i < p.length → startsWith t ((p ++ r).drop i) = false) →
      countSub t (p ++ r) = countSub t r := by
  intro p
  induction p with
  | nil => intro r _; rfl
  | cons c p ih =>
    intro r hno
    rw [List.cons_append, countSub]
    have h0 := hno 0 (by simp)
    rw [List.drop_zero, List.cons_append] at h0
    rw [h0]
    simp only [Bool.false_eq_true, if_false, Nat.zero_add]
    apply ih
    intro i hi
    have := hno (i + 1) (by simpa using Nat.succ_lt_succ hi)
    rwa [List.cons_append, List.drop_succ_cons] at this

theorem countSub_self_append {t s : List Char} (ht : t ≠ [])
    (hov : noSelfOverlap t = true) : countSub t (t ++ s) = 1 + countSub t s := by
  cases hteq : t with
  | nil => exact absurd hteq ht
  | cons c t0 =>
    rw [List.cons_append, countSub]
    have h1 : startsWith t (t ++ s) = true := startsWith_append_self _ _
    rw [hteq, List.cons_append] at h1
    rw [if_pos h1]
    congr 1
    apply countSub_append_of_no_occurrence t0 s
    intro i hi
    have hd : (t0 ++ s).drop i = t.drop (i + 1) ++ s := by
      rw [hteq, List.drop_succ_cons, List.drop_append_of_le_length (le_of_lt hi)]
    cases hsw : startsWith (c :: t0) ((t0 ++ s).drop i)
    · rfl
    exfalso
    rw [hd, ← hteq] at hsw
    have hk2 : i + 1 < t.length := by rw [hteq]; simp; omega
    have hself := self_overlap_of_shift hsw
    rw [noSelfOverlap_no hov (by omega) hk2] at hself
    exact absurd hself (by simp)

theorem expandReplF_no_dollar {m : List Char} :
    ∀ (fuel : Nat) (repl : List Char), repl.length ≤ fuel → '$' ∉ repl →
      expandReplF m fuel repl = repl := by
  intro fuel
  induction fuel with
  | zero =>
    intro repl hf _
    cases repl with
    | nil => rfl
    | cons c rest => simp at hf
  | succ fuel ih =>
    intro repl hf hnd
    cases repl with
    | nil => rfl
    | cons c rest =>
      have hc : ¬ c = '$' := by
        intro hh
        exact hnd (by rw [hh]; exact List.mem_cons_self _ _)
      simp only [expandReplF]
      rw [if_neg hc]
      have h1 : rest.length ≤ fuel := by simp only [List.length_cons] at hf; omega
      have h2 : '$' ∉ rest := fun hh => hnd (List.mem_cons_of_mem _ hh)
      rw [ih rest h1 h2]

theorem expandRepl_no_dollar {m repl : List Char} (h : '$' ∉ repl) :
    expandRepl m repl = repl :=
  expandReplF_no_dollar repl.length repl (le_refl _) h

theorem wfReplacement_no_dollar {prod : List Char} (h : '$' ∉ prod) :
    '$' ∉ wfReplacement prod := by
  rw [wfReplacement]
  intro hh
  rcases List.mem_append.mp hh with hh | hh
  · rcases List.mem_append.mp hh with hh | hh
    · exact absurd hh (by decide)
    · exact h hh
  · exact absurd hh (by decide)

/-! ## C1: the marker rewrite -/

/-- C1 amended: when the decoded body contains the marker pattern at
exactly one position and the configured domain contains no dollar sign
(so the dollar expansion of the replacement is inert), the rewrite
yields the body with that occurrence replaced by the attribute
data-wf-domain [prod] and no other text altered; provided additionally
that the replacement attribute does not overlap itself (both provisos
hold for any real domain value), the output contains the replacement
attribute at exactly one position.  Moreover each leftmost match is
replaced and scanning resumes after it, so all non-overlapping
occurrences, taken leftmost-first, are replaced. -/
theorem c1_marker_rewrite (prod body : List Char)
    (hone : countOcc body = 1)
    (hnd : '$' ∉ prod)
    (hov : noSelfOverlap (wfReplacement prod) = true) :
    (∃ p m s, body = p ++ m ++ s ∧ matchAt (m ++ s) = some (m, s) ∧
      replaceAll (wfReplacement prod) body = p ++ wfReplacement prod ++ s ∧
      countSub (wfReplacement prod) (replaceAll (wfReplacement prod) body) = 1) ∧
    (∀ p m s, (∀ i, i < p.length → (matchAt ((p ++ (m ++ s)).drop i)).isSome = false) →
      matchAt (m ++ s) = some (m, s) →
      replaceAll (wfReplacement prod) (p ++ (m ++ s)) =
        p ++ wfReplacement prod ++ replaceAll (wfReplacement prod) s) := by
  constructor
  · obtain ⟨p, m, s, hl, hms, hbefore, hs0⟩ := countOcc_one_decomp hone
    set t := wfReplacement prod with ht
    have hno2 : ∀ i, i < p.length → (matchAt ((p ++ (m ++ s)).drop i)).isSome = false := by
      intro i hi
      have := hbefore i hi
      rwa [hl, List.append_assoc] at this
    have hnod : '$' ∉ t := by rw [ht]; exact wfReplacement_no_dollar hnd
    have hra : replaceAll t body = p ++ t ++ replaceAll t s := by
      rw [hl, List.append_assoc,
        replaceAll_append_of_first p (m ++ s) m s hno2 hms,
        expandRepl_no_dollar hnod]
    have hself : replaceAll t s = s := replaceAll_eq_self hs0
    have hpno : ∀ i, i < p.length → startsWith t ((p ++ (t ++ s)).drop i) = false := by
      intro i hi
      cases hsw : startsWith t ((p ++ (t ++ s)).drop i)
      · rfl
      exfalso
      have hdrop : (p ++ (t ++ s)).drop i = p.drop i ++ (t ++ s) :=
        List.drop_append_of_le_length (le_of_lt hi)
      rw [hdrop] at hsw
      by_cases hcase : t.length ≤ (p.drop i).length
      · have h1 : startsWith t (p.drop i) = true := startsWith_of_take hcase hsw
        have h2 : startsWith t (p.drop i ++ (m ++ s)) = true := startsWith_of_append h1
        rw [ht] at h2
        have h3 : (matchAt (body.drop i)).isSome = true := by
          rw [hl, List.append_assoc, List.drop_append_of_le_length (le_of_lt hi)]
          exact matchAt_isSome_of_repl h2
        rw [hbefore i hi] at h3
        exact absurd h3 (by simp)
      · have hcase2 : (p.drop i).length < t.length := by omega
        have hd0 : 0 < (p.drop i).length := by simp [List.length_drop]; omega
        have hov2 := self_overlap_of_straddle hd0 hcase2 hsw
        rw [noSelfOverlap_no hov hd0 hcase2] at hov2
        exact absurd hov2 (by simp)
    have hs0' : countSub t s = 0 := by
      apply countSub_eq_zero
      intro j
      cases hsw : startsWith t (s.drop j)
      · rfl
      exfalso
      rw [ht] at hsw
      have h1 : (matchAt (s.drop j)).isSome = true := matchAt_isSome_of_repl hsw
      have h2 := (countOcc_eq_zero_iff.mp hs0) j
      rw [h1] at h2
      exact absurd h2 (by simp)
    have htne : t ≠ [] := by
      rw [ht, wfReplacement]
      intro hh
      have := congrArg List.length hh
      simp at this
    refine ⟨p, m, s, hl, hms, by rw [hra, hself], ?_⟩
    rw [hra, hself]
    calc countSub t (p ++ t ++ s)
        = countSub t (p ++ (t ++ s)) := by rw [List.append_assoc]
      _ = countSub t (t ++ s) := countSub_append_of_no_occurrence p (t ++ s) hpno
      _ = 1 + countSub t s := countSub_self_append htne hov
      _ = 1 := by rw [hs0']
  · intro p m s hno hms
    rw [replaceAll_append_of_first p (m ++ s) m s hno hms,
      expandRepl_no_dollar (wfReplacement_no_dollar hnd)]

/-- C1 counterexample: the claim fails on two in-scope configurations.
With the production domain configured to data-wf-domain= and a body that
contains the marker pattern at exactly one position, the rewritten output
contains the replacement attribute at two positions, not exactly one (the
inserted replacement text overlaps the untouched remainder of the body).
With the production domain configured to a double dollar, the dollar
expansion of the replacement writes data-wf-domain [single dollar]
instead of the configured value verbatim, so the output contains the
configured attribute at no position at all. -/
theorem c1_counterexample :
    (countOcc "data-wf-domain=\"x\"data-wf-domain=\"".data = 1 ∧
      countSub (wfReplacement "data-wf-domain=".data)
        (replaceAll (wfReplacement "data-wf-domain=".data)
          "data-wf-domain=\"x\"data-wf-domain=\"".data) = 2) ∧
    (countOcc "data-wf-domain=\"x\"".data = 1 ∧
      replaceAll (wfReplacement "$$".data) "data-wf-domain=\"x\"".data =
        "data-wf-domain=\"$\"".data ∧
      countSub (wfReplacement "$$".data)
        (replaceAll (wfReplacement "$$".data) "data-wf-domain=\"x\"".data) = 0) := by
  decide

theorem c1_witness :
    ∃ p m s,
      "a data-wf-domain=\"x.webflow.io\" b".data = p ++ m ++ s ∧
      matchAt (m ++ s) = some (m, s) ∧
      replaceAll (wfReplacement "prod.example.com".data)
          "a data-wf-domain=\"x.webflow.io\" b".data =
        p ++ wfReplacement "prod.example.com".data ++ s ∧
      countSub (wfReplacement "prod.example.com".data)
          (replaceAll (wfReplacement "prod.example.com".data)
            "a data-wf-domain=\"x.webflow.io\" b".data) = 1 :=
  (c1_marker_rewrite "prod.example.com".data "a data-wf-domain=\"x.webflow.io\" b".data
      (by decide) (by decide) (by decide)).1

/-! ## C10: HTML bodies are re-encoded, not byte-preserved -/

/-- C10: for every HTML-typed response the relayed body is the UTF-8
re-encoding of the (rewritten) lossy decode of the upstream bytes, and
there is an HTML-typed body with invalid UTF-8 and no marker whose relayed
bytes differ from the upstream bytes (the invalid byte becomes U+FFFD). -/
theorem c10_lossy_reencode (prod : List Char) :
    (∀ hs body, containsSeq "text/html".data (contentTypeOf hs) = true →
      modifiedBody prod hs body =
        utf8Encode (replaceAll (wfReplacement prod) (utf8DecodeLossy body))) ∧
    (∃ hs body,
      containsSeq "text/html".data (contentTypeOf hs) = true ∧
      utf8Valid body = false ∧
      countOcc (utf8DecodeLossy body) = 0 ∧
      modifiedBody prod hs body ≠ body) := by
  constructor
  · intro hs body h
    simp [modifiedBody, h]
  · refine ⟨[("content-type".data, "text/html".data)], [0xFF], by decide, by decide,
      by decide, ?_⟩
    intro heq
    unfold modifiedBody at heq
    rw [if_pos (by decide)] at heq
    rw [(by decide : utf8DecodeLossy [0xFF] = [Char.ofNat 0xFFFD])] at heq
    rw [replaceAll_eq_self (by decide)] at heq
    exact absurd heq (by decide)

theorem c10_witness :
    modifiedBody "p.example".data [("content-type".data, "text/html".data)] [0x68] =
      utf8Encode (replaceAll (wfReplacement "p.example".data) (utf8DecodeLossy [0x68])) :=
  (c10_lossy_reencode "p.example".data).1 [("content-type".data, "text/html".data)] [0x68]
    (by decide)

end WebflowProxy
